import Mathlib

/-!
# Verification of the fee-history cache and pending-block stage

A shallow embedding of `crates/rpc/rpc/src/eth/api/fee_history.rs` and of the
derived-origin path of `EthApi::local_pending_block` in
`crates/rpc/rpc/src/eth/api/mod.rs`, together with proofs of the specified
properties.

Conventions of the embedding:
* `u64` / `u128` / `U256` values are represented as `Nat`; where the Rust code
  can overflow or underflow (the cumulative-gas subtraction in the receipt scan
  and the cumulative-gas addition in the percentile walk, both on `u64`), the
  arithmetic is performed explicitly modulo `2 ^ 64`.
* `f64` percentile values are represented exactly as rationals (`ℚ`).  The cast
  `(gas_used as f64 * percentile / 100.) as u64` is modelled as the floor of
  the exact rational product, computed on the numerator/denominator so that it
  reduces in the kernel; negative values clamp to zero exactly as the Rust
  saturating float-to-int cast does.
* The `BTreeMap<u64, FeeHistoryEntry>` is represented as an association list
  that is strictly sorted by key, which is the order `BTreeMap` iterates in;
  `insert` keeps the list sorted (replacing an existing key), `pop_first`
  removes the head.
* The external `EthStateCache::get_transactions_and_receipts` collaborator is a
  parameter of type `Nat → Option (List TransactionSigned × List Receipt)`;
  `none` covers both the `Err(_)` and the `Ok(None)` outcome of the Rust call,
  which the `if let Ok(Some(..))` in `on_new_blocks` treats identically.
* `tokio` locks and atomics disappear: the lock-protected critical sections are
  modelled as pure state-passing functions, which is sound because every claim
  below is about the serialized behaviour inside those sections.
-/

/-- Model of `reth_primitives::Receipt`: only `cumulative_gas_used` (a `u64`)
is read by this core. -/
structure Receipt where
  cumulative_gas_used : Nat
deriving DecidableEq

/-- Model of `reth_primitives::TransactionSigned`: the only observation this
core makes of a transaction is `effective_tip_per_gas(base_fee) -> Option<u128>`,
so the transaction is represented by that function. -/
structure TransactionSigned where
  effective_tip_per_gas : Option Nat → Option Nat

/-- Model of `reth_rpc_types::TxGasAndReward`. -/
structure TxGasAndReward where
  gas_used : Nat
  reward : Nat
deriving DecidableEq

/-- `u64` wrapping subtraction `a - b` (the receipt scan
`receipt.cumulative_gas_used - *previous_gas`). -/
def sub64 (a b : Nat) : Nat :=
  (a % 2 ^ 64 + (2 ^ 64 - b % 2 ^ 64)) % 2 ^ 64

/-- `u64` wrapping addition (the walk `cumulative_gas_used += ...`). -/
def add64 (a b : Nat) : Nat :=
  (a + b) % 2 ^ 64

/-- The `scan` in `calculate_reward_percentiles_for_block`: zip transactions
with receipts, turn cumulative gas into per-transaction gas, and pair it with
`tx.effective_tip_per_gas(Some(base_fee_per_gas)).unwrap_or_default()`. -/
def scanGas (base_fee_per_gas : Nat) :
    Nat → List (TransactionSigned × Receipt) → List TxGasAndReward
  | _, [] => []
  | previous_gas, (tx, receipt) :: rest =>
    { gas_used := sub64 receipt.cumulative_gas_used previous_gas,
      reward := (tx.effective_tip_per_gas (some base_fee_per_gas)).getD 0 } ::
      scanGas base_fee_per_gas receipt.cumulative_gas_used rest

/-- The comparison used by `transactions.sort_by_key(|tx| tx.reward)`. -/
def rewardLE (a b : TxGasAndReward) : Prop := a.reward ≤ b.reward

instance : DecidableRel rewardLE := fun a b => Nat.decLe a.reward b.reward

instance : IsTotal TxGasAndReward rewardLE :=
  ⟨fun a b => Nat.le_total a.reward b.reward⟩

instance : IsTrans TxGasAndReward rewardLE :=
  ⟨fun _ _ _ hab hbc => Nat.le_trans hab hbc⟩

/-- Rust's `sort_by_key` is a stable sort; `List.insertionSort` with a total
preorder is stable and therefore produces the same list. -/
def sortByReward (txs : List TxGasAndReward) : List TxGasAndReward :=
  List.insertionSort rewardLE txs

/-- The threshold `(gas_used as f64 * percentile / 100.) as u64`, with the
`f64` percentile stood in for by an exact rational: this is
`⌊gas_used * p / 100⌋` computed on numerator and denominator (for the
nonnegative percentiles in range the two agree, and negative products clamp to
zero exactly like Rust's saturating cast). -/
def thresholdOf (gas_used : Nat) (p : ℚ) : Nat :=
  ((gas_used : Int) * p.num / ((100 : Int) * (p.den : Int))).toNat

/-- The body of the `while` loop advancing the shared cursor:
`while cumulative_gas_used < threshold && tx_index < transactions.len() - 1`.
The fuel argument is exactly `transactions.len() - 1 - tx_index`, so that
`fuel = 0` coincides with the guard `tx_index < transactions.len() - 1`
failing; this renders the loop structurally recursive. -/
def advanceAux (sorted : List TxGasAndReward) (threshold : Nat) :
    Nat → Nat → Nat → Nat × Nat
  | 0, tx_index, cumulative_gas_used => (tx_index, cumulative_gas_used)
  | fuel + 1, tx_index, cumulative_gas_used =>
    if cumulative_gas_used < threshold then
      advanceAux sorted threshold fuel (tx_index + 1)
        (add64 cumulative_gas_used ((sorted.getD (tx_index + 1) ⟨0, 0⟩).gas_used))
    else
      (tx_index, cumulative_gas_used)

/-- The cursor advance for one percentile, starting from the current
`(tx_index, cumulative_gas_used)` pair. -/
def advance (sorted : List TxGasAndReward) (threshold tx_index cumulative_gas_used : Nat) :
    Nat × Nat :=
  advanceAux sorted threshold (sorted.length - 1 - tx_index) tx_index cumulative_gas_used

/-- The `for percentile in percentiles` loop of
`calculate_reward_percentiles_for_block`, carrying the shared cursor. -/
def percentileLoop (gas_used : Nat) (sorted : List TxGasAndReward) :
    List ℚ → Nat → Nat → List Nat
  | [], _, _ => []
  | p :: ps, tx_index, cumulative_gas_used =>
    if sorted.isEmpty then
      0 :: percentileLoop gas_used sorted ps tx_index cumulative_gas_used
    else
      let s := advance sorted (thresholdOf gas_used p) tx_index cumulative_gas_used
      (sorted.getD s.1 ⟨0, 0⟩).reward :: percentileLoop gas_used sorted ps s.1 s.2

/-- `calculate_reward_percentiles_for_block`.  The Rust function returns
`Result<Vec<U256>, EthApiError>` but its body has a single `Ok(..)` exit and
no `?`, so the model returns the vector directly (the caller immediately
applies `unwrap_or_default`). -/
def calculate_reward_percentiles_for_block (percentiles : List ℚ)
    (gas_used base_fee_per_gas : Nat)
    (transactions : List TransactionSigned) (receipts : List Receipt) : List Nat :=
  let txs := scanGas base_fee_per_gas 0 (transactions.zip receipts)
  let sorted := sortByReward txs
  percentileLoop gas_used sorted percentiles 0
    ((sorted.head?.map TxGasAndReward.gas_used).getD 0)

/-- Model of `FeeHistoryCacheConfig` (`max_blocks`, `resolution`, both `u64`). -/
structure FeeHistoryCacheConfig where
  max_blocks : Nat
  resolution : Nat
deriving DecidableEq

/-- The `Default` impl: `max_blocks = 1024`, `resolution = 4`. -/
def FeeHistoryCacheConfig.default : FeeHistoryCacheConfig :=
  { max_blocks := 1024, resolution := 4 }

/-- The fields of `reth_primitives::SealedBlock` read by this core: the header
number, hash and parent hash, the optional base fee, and the gas numbers. -/
structure SealedBlock where
  number : Nat
  hash : Nat
  parent_hash : Nat
  base_fee_per_gas : Option Nat
  gas_used : Nat
  gas_limit : Nat
deriving DecidableEq

/-- Model of `FeeHistoryEntry`.  The `f64` field `gas_used_ratio` is stood in
for by the exact rational quotient. -/
structure FeeHistoryEntry where
  base_fee_per_gas : Nat
  gas_used_ratio : ℚ
  gas_used : Nat
  gas_limit : Nat
  header_hash : Nat
  rewards : List Nat
deriving DecidableEq

/-- `FeeHistoryEntry::new`: `base_fee_per_gas.unwrap_or_default()`,
`gas_used as f64 / gas_limit as f64` (exact rational here), empty rewards. -/
def FeeHistoryEntry.new (block : SealedBlock) : FeeHistoryEntry :=
  { base_fee_per_gas := block.base_fee_per_gas.getD 0,
    gas_used_ratio := mkRat block.gas_used block.gas_limit,
    gas_used := block.gas_used,
    gas_limit := block.gas_limit,
    header_hash := block.hash,
    rewards := [] }

/-- `FeeHistoryCache::predefined_percentiles`:
`(0..=100 * resolution).map(|p| p as f64 / resolution as f64)`, the `f64`
quotients stood in for by the exact rationals. -/
def predefined_percentiles (config : FeeHistoryCacheConfig) : List ℚ :=
  (List.range (100 * config.resolution + 1)).map fun p => mkRat p config.resolution

/-- The mutable state of `FeeHistoryCache`: the two atomics and the
`BTreeMap`, the latter as a strictly-key-sorted association list. -/
structure FeeHistoryCacheState where
  lower_bound : Nat
  upper_bound : Nat
  entries : List (Nat × FeeHistoryEntry)
deriving DecidableEq

/-- `FeeHistoryCache::new`: empty map, both bounds zero. -/
def FeeHistoryCacheState.new : FeeHistoryCacheState :=
  { lower_bound := 0, upper_bound := 0, entries := [] }

/-- `BTreeMap::insert` on the sorted-association-list representation: place
the binding at its key position, replacing an existing binding of the same
key. -/
def btreeInsert : List (Nat × FeeHistoryEntry) → Nat → FeeHistoryEntry →
    List (Nat × FeeHistoryEntry)
  | [], k, v => [(k, v)]
  | (k', v') :: rest, k, v =>
    if k < k' then (k, v) :: (k', v') :: rest
    else if k = k' then (k, v) :: rest
    else (k', v') :: btreeInsert rest k v

/-- The ingestion loop of `on_new_blocks`: for each block build the entry,
ask the transaction/receipt collaborator, on success fill the rewards (via
`unwrap_or_default`; the model function is total) and insert, on a miss or
error `break` out of the batch.  (The Rust code re-reads
`self.predefined_percentiles()` on every iteration; the value only depends on
the immutable config, so it is passed in once.) -/
def processBlocks (eth_cache : Nat → Option (List TransactionSigned × List Receipt))
    (percentiles : List ℚ) :
    List (Nat × FeeHistoryEntry) → List SealedBlock → List (Nat × FeeHistoryEntry)
  | entries, [] => entries
  | entries, block :: rest =>
    let fee_history_entry := FeeHistoryEntry.new block
    match eth_cache fee_history_entry.header_hash with
    | some (transactions, receipts) =>
      let entry :=
        { fee_history_entry with
          rewards := calculate_reward_percentiles_for_block percentiles
            fee_history_entry.gas_used fee_history_entry.base_fee_per_gas
            transactions receipts }
      processBlocks eth_cache percentiles (btreeInsert entries block.number entry) rest
    | none => entries

/-- `while entries.len() > max_blocks { entries.pop_first(); }`. -/
def evictLoop (max_blocks : Nat) : List (Nat × FeeHistoryEntry) → List (Nat × FeeHistoryEntry)
  | [] => []
  | e :: rest =>
    if (e :: rest).length > max_blocks then evictLoop max_blocks rest else e :: rest

/-- `FeeHistoryCache::on_new_blocks`: ingest the batch, evict from the front
down to `max_blocks`, then recompute both bounds (`0`/`0` when the map ended
up empty, else the first and last key). -/
def on_new_blocks (config : FeeHistoryCacheConfig)
    (eth_cache : Nat → Option (List TransactionSigned × List Receipt))
    (st : FeeHistoryCacheState) (blocks : List SealedBlock) : FeeHistoryCacheState :=
  let inserted := processBlocks eth_cache (predefined_percentiles config) st.entries blocks
  match evictLoop config.max_blocks inserted with
  | [] => { lower_bound := 0, upper_bound := 0, entries := [] }
  | e :: rest =>
    { lower_bound := e.1,
      upper_bound := ((e :: rest).getLast (List.cons_ne_nil e rest)).1,
      entries := e :: rest }

/-- The tail of `on_new_blocks` (eviction plus bound recomputation) as a
function of the post-insertion map; `on_new_blocks` is definitionally
`finishState config (processBlocks ...)`. -/
def finishState (config : FeeHistoryCacheConfig)
    (inserted : List (Nat × FeeHistoryEntry)) : FeeHistoryCacheState :=
  match evictLoop config.max_blocks inserted with
  | [] => { lower_bound := 0, upper_bound := 0, entries := [] }
  | e :: rest =>
    { lower_bound := e.1,
      upper_bound := ((e :: rest).getLast (List.cons_ne_nil e rest)).1,
      entries := e :: rest }

/-- Stand-in for `reth_interfaces::RethError` (the error side of
`RethResult`); `get_history` never constructs one. -/
inductive RethError
  | provider
deriving DecidableEq

/-- `FeeHistoryCache::get_history`: read both bounds, and if
`start_block >= lower_bound && end_block <= upper_bound` collect the entries
whose keys the Rust range query `start_block..=end_block + 1` selects, in
ascending key order; otherwise `Ok(None)`. -/
def get_history (st : FeeHistoryCacheState) (start_block end_block : Nat) :
    Except RethError (Option (List FeeHistoryEntry)) :=
  if start_block ≥ st.lower_bound ∧ end_block ≤ st.upper_bound then
    Except.ok (some ((st.entries.filter fun kv =>
      decide (start_block ≤ kv.1) && decide (kv.1 ≤ end_block + 1)).map Prod.snd))
  else
    Except.ok none

/-- The single slot guarded by the `pending_block` mutex:
`{ block, expires_at }`. -/
structure PendingBlock where
  block : SealedBlock
  expires_at : Nat
deriving DecidableEq

/-- The tail of the critical section of `local_pending_block` once the cached
slot was found stale (or absent): skip the build while syncing, otherwise take
the build outcome; a successful build is stored with
`expires_at = now + Duration::from_secs(3)` where `now` is taken after the
build finished.  The returned triple is (result, new slot contents, whether a
build was attempted). -/
def rebuildPendingBlock (slot : Option PendingBlock) (is_syncing : Bool)
    (build_result : Option SealedBlock) (build_done_at : Nat) :
    Option SealedBlock × Option PendingBlock × Bool :=
  if is_syncing then
    (none, slot, false)
  else
    match build_result with
    | none => (none, slot, true)
    | some pending_block =>
      (some pending_block, some { block := pending_block, expires_at := build_done_at + 3 }, true)

/-- The critical section of `EthApi::local_pending_block` for a derived
origin (the closure running on the blocking task pool): reuse the cached slot
iff the derived child number matches the cached block's number, the derived
origin header's hash matches the cached block's parent hash, and `now` has not
passed `expires_at`; otherwise rebuild.  `env_number` is
`pending.block_env.number`, `origin_hash` is `pending.origin.header().hash`,
`now` is the `Instant::now()` read before the check. -/
def local_pending_block_derived (env_number origin_hash : Nat)
    (slot : Option PendingBlock) (now : Nat) (is_syncing : Bool)
    (build_result : Option SealedBlock) (build_done_at : Nat) :
    Option SealedBlock × Option PendingBlock × Bool :=
  match slot with
  | some pending_block =>
    if env_number = pending_block.block.number ∧
        origin_hash = pending_block.block.parent_hash ∧
        now ≤ pending_block.expires_at then
      (some pending_block.block, slot, false)
    else
      rebuildPendingBlock slot is_syncing build_result build_done_at
  | none => rebuildPendingBlock slot is_syncing build_result build_done_at

/-- The `BTreeMap` representation invariant: keys strictly increasing in
iteration order. -/
def sortedByKey (l : List (Nat × FeeHistoryEntry)) : Prop :=
  List.Pairwise (fun a b => a.1 < b.1) l

/-- Keys of the map in iteration order. -/
def keysOf (l : List (Nat × FeeHistoryEntry)) : List Nat :=
  l.map Prod.fst

/-- The invariant bundle that one completed `on_new_blocks` call must
establish: size bounded by `max_blocks`; the surviving entries are exactly the
final segment of the post-insertion map (so eviction removed a prefix, i.e.
the smallest keys); every evicted key is smaller than every surviving key; and
the two bounds are the min/max surviving keys, or both zero on an empty map. -/
def InvAfter (config : FeeHistoryCacheConfig)
    (inserted : List (Nat × FeeHistoryEntry)) (result : FeeHistoryCacheState) : Prop :=
  result.entries.length ≤ config.max_blocks ∧
  result.entries = inserted.drop (inserted.length - config.max_blocks) ∧
  (∀ x ∈ inserted.take (inserted.length - config.max_blocks),
    ∀ y ∈ result.entries, x.1 < y.1) ∧
  (result.entries = [] → result.lower_bound = 0 ∧ result.upper_bound = 0) ∧
  (result.entries ≠ [] →
    (result.lower_bound ∈ keysOf result.entries ∧
      ∀ k ∈ keysOf result.entries, result.lower_bound ≤ k) ∧
    (result.upper_bound ∈ keysOf result.entries ∧
      ∀ k ∈ keysOf result.entries, k ≤ result.upper_bound))

/-- The invariant bundle instantiated at one completed `on_new_blocks` call:
the relation between the post-insertion map and the final state. -/
def OnNewBlocksInv (config : FeeHistoryCacheConfig)
    (eth_cache : Nat → Option (List TransactionSigned × List Receipt))
    (st : FeeHistoryCacheState) (blocks : List SealedBlock) : Prop :=
  InvAfter config
    (processBlocks eth_cache (predefined_percentiles config) st.entries blocks)
    (on_new_blocks config eth_cache st blocks)

/-- The reuse/rebuild contract of the derived-origin pending-block path, for a
request that finds a cached slot: the cached block is returned with no build
attempt iff the three freshness conditions hold; and when they do not hold,
the network is not syncing and the build succeeds, the fresh block is returned
and cached with expiry three seconds after build completion. -/
def PendingReuseSpec (env_number origin_hash now build_done_at : Nat)
    (is_syncing : Bool) (build_result : Option SealedBlock) (pb : PendingBlock) : Prop :=
  (local_pending_block_derived env_number origin_hash (some pb) now is_syncing
      build_result build_done_at = (some pb.block, some pb, false) ↔
    env_number = pb.block.number ∧ origin_hash = pb.block.parent_hash ∧
      now ≤ pb.expires_at) ∧
  (¬(env_number = pb.block.number ∧ origin_hash = pb.block.parent_hash ∧
      now ≤ pb.expires_at) →
    is_syncing = false → ∀ b, build_result = some b →
      local_pending_block_derived env_number origin_hash (some pb) now is_syncing
        build_result build_done_at =
        (some b, some { block := b, expires_at := build_done_at + 3 }, true))

/-- A fee entry with the given header hash and all other fields zeroed. -/
def flatEntry (h : Nat) : FeeHistoryEntry :=
  { base_fee_per_gas := 0, gas_used_ratio := 0, gas_used := 0, gas_limit := 0,
    header_hash := h, rewards := [] }

/-- A well-formed cache state holding blocks 1, 2 and 3. -/
def threeBlockState : FeeHistoryCacheState :=
  { lower_bound := 1, upper_bound := 3,
    entries := [(1, flatEntry 1), (2, flatEntry 2), (3, flatEntry 3)] }

/-- A block whose number, hash and parent hash are all `n` and whose gas
numbers are zero. -/
def blockAt (n : Nat) : SealedBlock :=
  { number := n, hash := n, parent_hash := n, base_fee_per_gas := none,
    gas_used := 0, gas_limit := 0 }

/-- A transaction/receipt collaborator that only knows block hash 1. -/
def hitMissCache : Nat → Option (List TransactionSigned × List Receipt) :=
  fun h => if h = 1 then some ([], []) else none

/-- A transaction/receipt collaborator that answers every hash with an empty
transaction and receipt list. -/
def allHitCache : Nat → Option (List TransactionSigned × List Receipt) :=
  fun _ => some ([], [])

/-- The configuration of the ingestion scenario: `max_blocks = 1024` (the
resolution keeps its default). -/
def scenarioConfig : FeeHistoryCacheConfig :=
  { max_blocks := 1024, resolution := 4 }

/-- One scenario step: a single-block `on_new_blocks` call. -/
def scenarioStep (st : FeeHistoryCacheState) (n : Nat) : FeeHistoryCacheState :=
  on_new_blocks scenarioConfig allHitCache st [blockAt n]

/-- The scenario state after ingesting blocks `1, 2, ..., n` one call each,
starting from the freshly constructed cache. -/
def scenarioState (n : Nat) : FeeHistoryCacheState :=
  (List.range' 1 n).foldl scenarioStep FeeHistoryCacheState.new

/-- The entry the scenario ingestion stores for block `k`. -/
def scenarioEntry (k : Nat) : FeeHistoryEntry :=
  { FeeHistoryEntry.new (blockAt k) with
    rewards := calculate_reward_percentiles_for_block
      (predefined_percentiles scenarioConfig) 0 0 [] [] }

/-- A transaction whose effective tip is `t` whatever the base fee. -/
def tipTx (t : Nat) : TransactionSigned :=
  ⟨fun _ => some t⟩

/-- The canonical shape of the scenario's cache state: bounds `a`/`u` and one
entry per block number in `[a, a + m)`. -/
def canonState (a u m : Nat) : FeeHistoryCacheState :=
  { lower_bound := a, upper_bound := u,
    entries := (List.range' a m).map fun k => (k, scenarioEntry k) }

/-- A cached pending-block slot: block number 5, parent hash 7, expiry 10. -/
def samplePendingBlock : PendingBlock :=
  { block := { number := 5, hash := 9, parent_hash := 7, base_fee_per_gas := none,
               gas_used := 0, gas_limit := 0 },
    expires_at := 10 }

theorem percentileLoop_length (gas_used : Nat) (sorted : List TxGasAndReward)
    (ps : List ℚ) : ∀ (i c : Nat),
    (percentileLoop gas_used sorted ps i c).length = ps.length := by
  induction ps with
  | nil => intro i c; rfl
  | cons p ps ih =>
    intro i c
    unfold percentileLoop
    split_ifs <;> simp [ih]

theorem percentileLoop_nil_sorted (gas_used : Nat) (ps : List ℚ) :
    ∀ (i c : Nat), percentileLoop gas_used [] ps i c = List.replicate ps.length 0 := by
  induction ps with
  | nil => intro i c; rfl
  | cons p ps ih => intro i c; simp [percentileLoop, ih, List.replicate]

/-- C8: the calculator returns one reward per requested percentile, in input
order; with no transactions it returns all zeros, one per percentile. -/
theorem calculate_rewards_shape (percentiles : List ℚ) (gas_used base_fee_per_gas : Nat)
    (transactions : List TransactionSigned) (receipts : List Receipt) :
    (calculate_reward_percentiles_for_block percentiles gas_used base_fee_per_gas
        transactions receipts).length = percentiles.length ∧
    calculate_reward_percentiles_for_block percentiles gas_used base_fee_per_gas
        [] receipts = List.replicate percentiles.length 0 := by
  constructor
  · exact percentileLoop_length _ _ _ _ _
  · exact percentileLoop_nil_sorted gas_used percentiles 0 0

/-- C4: `get_history` answers `Ok(None)` exactly when the requested range
falls outside the cached bounds, and never returns the error side of the
`Result`. -/
theorem get_history_none_iff (st : FeeHistoryCacheState) (start_block end_block : Nat) :
    (get_history st start_block end_block = Except.ok none ↔
      start_block < st.lower_bound ∨ end_block > st.upper_bound) ∧
    ∃ r, get_history st start_block end_block = Except.ok r := by
  unfold get_history
  split_ifs with h
  · refine ⟨⟨fun hc => ?_, fun hc => ?_⟩, _, rfl⟩
    · simp at hc
    · omega
  · exact ⟨⟨fun _ => by omega, fun _ => rfl⟩, _, rfl⟩

/-- C1 (failing input): with blocks 1, 2, 3 cached and bounds 1/3, the in-range
request `get_history(1, 2)` also returns the entry of block 3, because the
implementation queries the inclusive key range `start..=end + 1`. -/
theorem get_history_c1_failing : get_history threeBlockState 1 2 =
    Except.ok (some [flatEntry 1, flatEntry 2, flatEntry 3]) := rfl

/-- C7: the reference block — three transactions with tips 5, 1, 9, cumulative
gas 30/60/90, block gas used 90 — yields rewards [1, 5, 9] at percentiles
0/50/100. -/
theorem calculate_rewards_c7 :
    calculate_reward_percentiles_for_block [0, 50, 100] 90 0
      [tipTx 5, tipTx 1, tipTx 9] [⟨30⟩, ⟨60⟩, ⟨90⟩] = [1, 5, 9] := by
  decide

/-- C9: for a derived origin and an occupied slot, the cached block is reused
(no build) iff number, parent hash and TTL all check out; on any mismatch with
the network in sync and a successful build, the new block is returned and
cached with a three-second expiry from build completion. -/
theorem local_pending_block_reuse (env_number origin_hash now build_done_at : Nat)
    (is_syncing : Bool) (build_result : Option SealedBlock) (pb : PendingBlock) :
    PendingReuseSpec env_number origin_hash now build_done_at is_syncing build_result pb := by
  have hr : local_pending_block_derived env_number origin_hash (some pb) now is_syncing
      build_result build_done_at =
      if env_number = pb.block.number ∧ origin_hash = pb.block.parent_hash ∧
          now ≤ pb.expires_at
        then (some pb.block, some pb, false)
        else rebuildPendingBlock (some pb) is_syncing build_result build_done_at := rfl
  unfold PendingReuseSpec
  rw [hr]
  constructor
  · split_ifs with h
    · simp [h]
    · rw [iff_false_intro h]
      unfold rebuildPendingBlock
      split_ifs with hsync
      · simp
      · cases build_result with
        | none => simp
        | some b => simp
  · intro hcond hsync b hb
    rw [if_neg hcond]
    simp [rebuildPendingBlock, hsync, hb]

theorem on_new_blocks_eq_finish (config : FeeHistoryCacheConfig)
    (eth_cache : Nat → Option (List TransactionSigned × List Receipt))
    (st : FeeHistoryCacheState) (blocks : List SealedBlock) :
    on_new_blocks config eth_cache st blocks =
      finishState config
        (processBlocks eth_cache (predefined_percentiles config) st.entries blocks) := rfl

theorem btreeInsert_mem (k : Nat) (v : FeeHistoryEntry) (l : List (Nat × FeeHistoryEntry)) :
    ∀ x ∈ btreeInsert l k v, x = (k, v) ∨ x ∈ l := by
  induction l with
  | nil =>
    intro x hx
    simp [btreeInsert] at hx
    simp [hx]
  | cons a rest ih =>
    obtain ⟨k', v'⟩ := a
    intro x hx
    unfold btreeInsert at hx
    split_ifs at hx with h1 h2
    · rcases List.mem_cons.mp hx with rfl | hx'
      · exact Or.inl rfl
      · exact Or.inr hx'
    · rcases List.mem_cons.mp hx with rfl | hx'
      · exact Or.inl rfl
      · exact Or.inr (List.mem_cons_of_mem _ hx')
    · rcases List.mem_cons.mp hx with rfl | hx'
      · exact Or.inr (List.mem_cons_self _ _)
      · rcases ih x hx' with h | h
        · exact Or.inl h
        · exact Or.inr (List.mem_cons_of_mem _ h)

theorem btreeInsert_sorted (k : Nat) (v : FeeHistoryEntry)
    (l : List (Nat × FeeHistoryEntry)) (hs : sortedByKey l) :
    sortedByKey (btreeInsert l k v) := by
  induction l with
  | nil => simp [btreeInsert, sortedByKey]
  | cons a rest ih =>
    obtain ⟨k', v'⟩ := a
    rw [sortedByKey, List.pairwise_cons] at hs
    obtain ⟨ha, hrest⟩ := hs
    unfold btreeInsert
    split_ifs with h1 h2
    · rw [sortedByKey, List.pairwise_cons]
      refine ⟨fun b hb => ?_, ?_⟩
      · rcases List.mem_cons.mp hb with rfl | hb'
        · exact h1
        · exact lt_trans h1 (ha b hb')
      · rw [List.pairwise_cons]
        exact ⟨ha, hrest⟩
    · rw [sortedByKey, List.pairwise_cons]
      exact ⟨fun b hb => h2 ▸ ha b hb, hrest⟩
    · rw [sortedByKey, List.pairwise_cons]
      refine ⟨fun b hb => ?_, ih hrest⟩
      rcases btreeInsert_mem k v rest b hb with rfl | hb'
      · simp only []
        omega
      · exact ha b hb'

theorem processBlocks_sorted (eth_cache : Nat → Option (List TransactionSigned × List Receipt))
    (percentiles : List ℚ) (blocks : List SealedBlock) :
    ∀ (entries : List (Nat × FeeHistoryEntry)), sortedByKey entries →
      sortedByKey (processBlocks eth_cache percentiles entries blocks) := by
  induction blocks with
  | nil => intro entries hs; exact hs
  | cons b rest ih =>
    intro entries hs
    cases h : eth_cache (FeeHistoryEntry.new b).header_hash with
    | none => simpa [processBlocks, h] using hs
    | some pair =>
      obtain ⟨txs, rcpts⟩ := pair
      simp only [processBlocks, h]
      exact ih _ (btreeInsert_sorted _ _ _ hs)

theorem evictLoop_eq_drop (m : Nat) : ∀ (l : List (Nat × FeeHistoryEntry)),
    evictLoop m l = l.drop (l.length - m)
  | [] => by simp [evictLoop]
  | e :: rest => by
    unfold evictLoop
    split_ifs with h
    · rw [evictLoop_eq_drop m rest]
      have hl : (e :: rest).length - m = (rest.length - m) + 1 := by
        simp only [List.length_cons] at h ⊢
        omega
      rw [hl, List.drop_succ_cons]
    · have hl : (e :: rest).length - m = 0 := by
        simp only [List.length_cons] at h ⊢
        omega
      rw [hl, List.drop_zero]

theorem sorted_le_getLast : ∀ (l : List (Nat × FeeHistoryEntry)) (h : l ≠ []),
    sortedByKey l → ∀ x ∈ l, x.1 ≤ (l.getLast h).1 := by
  intro l
  induction l with
  | nil => intro h; exact absurd rfl h
  | cons a rest ih =>
    intro h hs x hx
    cases rest with
    | nil =>
      rcases List.mem_cons.mp hx with rfl | hx'
      · exact le_refl _
      · exact absurd hx' (List.not_mem_nil x)
    | cons b t =>
      rw [sortedByKey, List.pairwise_cons] at hs
      obtain ⟨ha, hrest⟩ := hs
      rw [List.getLast_cons (List.cons_ne_nil b t)]
      rcases List.mem_cons.mp hx with rfl | hx'
      · exact le_of_lt (ha _ (List.getLast_mem (List.cons_ne_nil b t)))
      · exact ih (List.cons_ne_nil b t) hrest x hx'

theorem invAfter_of_sorted (config : FeeHistoryCacheConfig)
    (inserted : List (Nat × FeeHistoryEntry)) (hs : sortedByKey inserted) :
    InvAfter config inserted (finishState config inserted) := by
  cases hev : evictLoop config.max_blocks inserted with
  | nil =>
    have hfin : finishState config inserted =
        { lower_bound := 0, upper_bound := 0, entries := [] } := by
      unfold finishState
      rw [hev]
    have hdrop : inserted.drop (inserted.length - config.max_blocks) = [] :=
      (evictLoop_eq_drop _ _).symm.trans hev
    unfold InvAfter
    rw [hfin]
    refine ⟨Nat.zero_le _, hdrop.symm, ?_, fun _ => ⟨rfl, rfl⟩, ?_⟩
    · intro x hx y hy
      exact absurd hy (List.not_mem_nil y)
    · intro hne
      exact absurd rfl hne
  | cons e rest =>
    have hfin : finishState config inserted =
        { lower_bound := e.1,
          upper_bound := ((e :: rest).getLast (List.cons_ne_nil e rest)).1,
          entries := e :: rest } := by
      unfold finishState
      rw [hev]
    have hdrop : inserted.drop (inserted.length - config.max_blocks) = e :: rest :=
      (evictLoop_eq_drop _ _).symm.trans hev
    have hsur : sortedByKey (e :: rest) := by
      rw [← hdrop]
      exact List.Pairwise.sublist (List.drop_sublist _ _) hs
    have hlen : (e :: rest).length ≤ config.max_blocks := by
      have := congrArg List.length hdrop
      rw [List.length_drop] at this
      omega
    unfold InvAfter
    rw [hfin]
    refine ⟨hlen, hdrop.symm, ?_, ?_, ?_⟩
    · intro x hx y hy
      have hsplit := hs
      rw [sortedByKey, ← List.take_append_drop (inserted.length - config.max_blocks) inserted,
        List.pairwise_append] at hsplit
      exact hsplit.2.2 x hx y (hdrop ▸ hy)
    · intro h
      exact absurd h (List.cons_ne_nil e rest)
    · intro _
      rw [sortedByKey, List.pairwise_cons] at hsur
      constructor
      · constructor
        · exact List.mem_map.mpr ⟨e, List.mem_cons_self e rest, rfl⟩
        · intro k hk
          obtain ⟨x, hx, rfl⟩ := List.mem_map.mp hk
          rcases List.mem_cons.mp hx with rfl | hx'
          · exact le_refl _
          · exact le_of_lt (hsur.1 x hx')
      · constructor
        · exact List.mem_map.mpr
            ⟨_, List.getLast_mem (List.cons_ne_nil e rest), rfl⟩
        · intro k hk
          obtain ⟨x, hx, rfl⟩ := List.mem_map.mp hk
          exact sorted_le_getLast (e :: rest) (List.cons_ne_nil e rest)
            (by rw [sortedByKey, List.pairwise_cons]; exact hsur) x hx

/-- C2: a completed `on_new_blocks` call on a well-formed state leaves at most
`max_blocks` entries, keeps exactly a final segment of the post-insertion map
(evicting only the smallest keys), and recomputes the bounds as the min/max
surviving keys, or zero/zero on an empty map. -/
theorem on_new_blocks_inv (config : FeeHistoryCacheConfig)
    (eth_cache : Nat → Option (List TransactionSigned × List Receipt))
    (st : FeeHistoryCacheState) (blocks : List SealedBlock)
    (hs : sortedByKey st.entries) :
    OnNewBlocksInv config eth_cache st blocks := by
  unfold OnNewBlocksInv
  rw [on_new_blocks_eq_finish]
  exact invAfter_of_sorted config _
    (processBlocks_sorted eth_cache (predefined_percentiles config) blocks st.entries hs)

/-- Witness for C2 at a concrete, well-formed input. -/
theorem on_new_blocks_inv_witness :
    OnNewBlocksInv scenarioConfig allHitCache FeeHistoryCacheState.new [blockAt 1] :=
  on_new_blocks_inv scenarioConfig allHitCache FeeHistoryCacheState.new [blockAt 1]
    List.Pairwise.nil

theorem processBlocks_append_break
    (eth_cache : Nat → Option (List TransactionSigned × List Receipt))
    (percentiles : List ℚ) (b : SealedBlock) (post : List SealedBlock)
    (hb : eth_cache b.hash = none) :
    ∀ (pre : List SealedBlock) (entries : List (Nat × FeeHistoryEntry)),
      (∀ x ∈ pre, (eth_cache x.hash).isSome = true) →
      processBlocks eth_cache percentiles entries (pre ++ b :: post) =
        processBlocks eth_cache percentiles entries pre := by
  intro pre
  induction pre with
  | nil =>
    intro entries _
    rw [List.nil_append]
    show (match eth_cache (FeeHistoryEntry.new b).header_hash with
      | some (transactions, receipts) =>
        processBlocks eth_cache percentiles
          (btreeInsert entries b.number
            { FeeHistoryEntry.new b with
              rewards := calculate_reward_percentiles_for_block percentiles
                (FeeHistoryEntry.new b).gas_used (FeeHistoryEntry.new b).base_fee_per_gas
                transactions receipts }) post
      | none => entries) = entries
    rw [show (FeeHistoryEntry.new b).header_hash = b.hash from rfl, hb]
  | cons a pre ih =>
    intro entries hpre
    have ha : (eth_cache a.hash).isSome = true := hpre a (List.mem_cons_self a pre)
    obtain ⟨pair, hpair⟩ := Option.isSome_iff_exists.mp ha
    obtain ⟨txs, rcpts⟩ := pair
    rw [List.cons_append]
    unfold processBlocks
    dsimp only [FeeHistoryEntry.new]
    rw [hpair]
    exact ih _ fun x hx => hpre x (List.mem_cons_of_mem a hx)

/-- C5: when the transaction/receipt collaborator has no data for a block in
the middle of a batch, the call behaves exactly as if the batch had ended just
before that block: only the preceding blocks are inserted, the failing block
and the rest of the batch are dropped, and bounds are recomputed from the
truncated map. -/
theorem on_new_blocks_truncated_batch (config : FeeHistoryCacheConfig)
    (eth_cache : Nat → Option (List TransactionSigned × List Receipt))
    (st : FeeHistoryCacheState) (pre : List SealedBlock) (b : SealedBlock)
    (post : List SealedBlock)
    (hpre : ∀ x ∈ pre, (eth_cache x.hash).isSome = true)
    (hb : eth_cache b.hash = none) :
    on_new_blocks config eth_cache st (pre ++ b :: post) =
      on_new_blocks config eth_cache st pre := by
  rw [on_new_blocks_eq_finish, on_new_blocks_eq_finish,
    processBlocks_append_break eth_cache (predefined_percentiles config) b post hb pre
      st.entries hpre]

/-- Witness for C5: block 2 is unknown to the collaborator, so ingesting
[1, 2, 3] equals ingesting [1]. -/
theorem on_new_blocks_truncated_batch_witness :
    on_new_blocks scenarioConfig hitMissCache FeeHistoryCacheState.new
        ([blockAt 1] ++ blockAt 2 :: [blockAt 3]) =
      on_new_blocks scenarioConfig hitMissCache FeeHistoryCacheState.new [blockAt 1] :=
  on_new_blocks_truncated_batch scenarioConfig hitMissCache FeeHistoryCacheState.new
    [blockAt 1] (blockAt 2) [blockAt 3] (by decide) (by rfl)

/-- Witness for C9: with number, parent hash and TTL all matching, the cached
slot is returned untouched and no build happens. -/
theorem local_pending_block_reuse_witness :
    local_pending_block_derived 5 7 (some samplePendingBlock) 3 false none 0 =
      (some samplePendingBlock.block, some samplePendingBlock, false) :=
  (local_pending_block_reuse 5 7 3 0 false none samplePendingBlock).1.mpr
    ⟨rfl, rfl, by decide⟩

theorem advanceAux_fst_bounds (sorted : List TxGasAndReward) (threshold : Nat) :
    ∀ (fuel i c : Nat), i ≤ (advanceAux sorted threshold fuel i c).1 ∧
      (advanceAux sorted threshold fuel i c).1 ≤ i + fuel := by
  intro fuel
  induction fuel with
  | zero => intro i c; exact ⟨le_refl i, le_of_eq (Nat.add_zero i).symm⟩
  | succ fuel ih =>
    intro i c
    unfold advanceAux
    split_ifs with h
    · obtain ⟨h1, h2⟩ := ih (i + 1) (add64 c ((sorted.getD (i + 1) ⟨0, 0⟩).gas_used))
      exact ⟨le_trans (Nat.le_succ i) h1, by omega⟩
    · exact ⟨le_refl i, by omega⟩

theorem advance_fst_bounds (sorted : List TxGasAndReward) (threshold i c : Nat)
    (hi : i ≤ sorted.length - 1) :
    i ≤ (advance sorted threshold i c).1 ∧
      (advance sorted threshold i c).1 ≤ sorted.length - 1 := by
  unfold advance
  obtain ⟨h1, h2⟩ := advanceAux_fst_bounds sorted threshold (sorted.length - 1 - i) i c
  exact ⟨h1, by omega⟩

theorem sorted_getD_reward_mono (sorted : List TxGasAndReward)
    (hs : List.Sorted rewardLE sorted) {i j : Nat} (hij : i ≤ j) (hj : j < sorted.length) :
    (sorted.getD i ⟨0, 0⟩).reward ≤ (sorted.getD j ⟨0, 0⟩).reward := by
  have hi : i < sorted.length := lt_of_le_of_lt hij hj
  rw [List.getD_eq_getElem sorted ⟨0, 0⟩ hi, List.getD_eq_getElem sorted ⟨0, 0⟩ hj]
  rcases Nat.lt_or_ge i j with hlt | hge
  · exact List.pairwise_iff_get.mp hs ⟨i, hi⟩ ⟨j, hj⟩ hlt
  · have heq : i = j := le_antisymm hij hge
    subst heq
    exact le_refl _

theorem percentileLoop_sorted_bounds (gas_used : Nat) (sorted : List TxGasAndReward)
    (hne : sorted ≠ []) (hs : List.Sorted rewardLE sorted) :
    ∀ (ps : List ℚ) (i c : Nat), i ≤ sorted.length - 1 →
      (percentileLoop gas_used sorted ps i c).Pairwise (· ≤ ·) ∧
      ∀ x ∈ percentileLoop gas_used sorted ps i c,
        (sorted.getD i ⟨0, 0⟩).reward ≤ x := by
  intro ps
  have hempty : sorted.isEmpty = false := by
    cases sorted with
    | nil => exact absurd rfl hne
    | cons a l => rfl
  have hlen : 0 < sorted.length := List.length_pos.mpr hne
  induction ps with
  | nil =>
    intro i c hi
    exact ⟨List.Pairwise.nil, fun x hx => absurd hx (List.not_mem_nil x)⟩
  | cons p ps ih =>
    intro i c hi
    unfold percentileLoop
    rw [hempty]
    simp only [Bool.false_eq_true, if_false]
    obtain ⟨hadv1, hadv2⟩ :=
      advance_fst_bounds sorted (thresholdOf gas_used p) i c hi
    obtain ⟨ihp, ihb⟩ :=
      ih (advance sorted (thresholdOf gas_used p) i c).1
        (advance sorted (thresholdOf gas_used p) i c).2 hadv2
    constructor
    · rw [List.pairwise_cons]
      exact ⟨ihb, ihp⟩
    · intro x hx
      rcases List.mem_cons.mp hx with rfl | hx'
      · exact sorted_getD_reward_mono sorted hs hadv1 (by omega)
      · exact le_trans (sorted_getD_reward_mono sorted hs hadv1 (by omega)) (ihb x hx')

/-- C6: for monotone percentiles in range and 1:1 transactions/receipts, the
emitted reward sequence is non-decreasing: the shared cursor never regresses
and the list it indexes is sorted by reward. -/
theorem calculate_rewards_monotone (percentiles : List ℚ) (gas_used base_fee_per_gas : Nat)
    (transactions : List TransactionSigned) (receipts : List Receipt)
    (hlen : transactions.length = receipts.length)
    (hmono : percentiles.Pairwise (· ≤ ·))
    (hrange : ∀ p ∈ percentiles, 0 ≤ p ∧ p ≤ 100) :
    (calculate_reward_percentiles_for_block percentiles gas_used base_fee_per_gas
      transactions receipts).Pairwise (· ≤ ·) := by
  by_cases hne :
    sortByReward (scanGas base_fee_per_gas 0 (transactions.zip receipts)) = []
  · have hrepl : calculate_reward_percentiles_for_block percentiles gas_used
        base_fee_per_gas transactions receipts = List.replicate percentiles.length 0 := by
      show percentileLoop _ _ _ _ _ = _
      rw [hne]
      exact percentileLoop_nil_sorted _ _ _ _
    rw [hrepl]
    exact List.pairwise_replicate.mpr (Or.inr (le_refl 0))
  · exact (percentileLoop_sorted_bounds gas_used _ hne
      (List.sorted_insertionSort rewardLE _) percentiles 0 _ (Nat.zero_le _)).1

/-- Witness for C6 at the three-transaction block. -/
theorem calculate_rewards_monotone_witness :
    (calculate_reward_percentiles_for_block [0, 50, 100] 90 0
      [tipTx 5, tipTx 1, tipTx 9] [⟨30⟩, ⟨60⟩, ⟨90⟩]).Pairwise (· ≤ ·) :=
  calculate_rewards_monotone [0, 50, 100] 90 0 [tipTx 5, tipTx 1, tipTx 9]
    [⟨30⟩, ⟨60⟩, ⟨90⟩] (by decide) (by decide) (by decide)

theorem scanGas_length (base_fee_per_gas : Nat) :
    ∀ (pairs : List (TransactionSigned × Receipt)) (prev : Nat),
      (scanGas base_fee_per_gas prev pairs).length = pairs.length := by
  intro pairs
  induction pairs with
  | nil => intro prev; rfl
  | cons a rest ih =>
    obtain ⟨tx, receipt⟩ := a
    intro prev
    unfold scanGas
    simp only [List.length_cons, ih]

theorem scanGas_reward_mem (base_fee_per_gas : Nat) :
    ∀ (pairs : List (TransactionSigned × Receipt)) (prev : Nat),
      ∀ t ∈ scanGas base_fee_per_gas prev pairs, ∃ pr ∈ pairs,
        t.reward = ((pr.1).effective_tip_per_gas (some base_fee_per_gas)).getD 0 := by
  intro pairs
  induction pairs with
  | nil => intro prev t ht; exact absurd ht (List.not_mem_nil t)
  | cons a rest ih =>
    obtain ⟨tx, receipt⟩ := a
    intro prev t ht
    rw [scanGas] at ht
    rcases List.mem_cons.mp ht with rfl | ht'
    · exact ⟨(tx, receipt), List.mem_cons_self _ _, rfl⟩
    · obtain ⟨pr, hpr, heq⟩ := ih receipt.cumulative_gas_used t ht'
      exact ⟨pr, List.mem_cons_of_mem _ hpr, heq⟩

theorem percentileLoop_mem (gas_used : Nat) (sorted : List TxGasAndReward)
    (hne : sorted ≠ []) :
    ∀ (ps : List ℚ) (i c : Nat), i ≤ sorted.length - 1 →
      ∀ x ∈ percentileLoop gas_used sorted ps i c, ∃ t ∈ sorted, x = t.reward := by
  intro ps
  have hempty : sorted.isEmpty = false := by
    cases sorted with
    | nil => exact absurd rfl hne
    | cons a l => rfl
  have hlen : 0 < sorted.length := List.length_pos.mpr hne
  induction ps with
  | nil => intro i c hi x hx; exact absurd hx (List.not_mem_nil x)
  | cons p ps ih =>
    intro i c hi x hx
    rw [percentileLoop, hempty] at hx
    simp only [Bool.false_eq_true, if_false] at hx
    obtain ⟨hadv1, hadv2⟩ :=
      advance_fst_bounds sorted (thresholdOf gas_used p) i c hi
    rcases List.mem_cons.mp hx with rfl | hx'
    · have hlt : (advance sorted (thresholdOf gas_used p) i c).1 < sorted.length := by
        omega
      rw [List.getD_eq_getElem sorted ⟨0, 0⟩ hlt]
      exact ⟨_, List.getElem_mem hlt, rfl⟩
    · exact ih _ _ hadv2 x hx'

/-- C10: every reward the calculator emits for a non-empty block is the
effective priority fee of one of the block's transactions — the shared cursor
is clamped to the last index of the fee-sorted list, so indexing stays in
bounds even when the threshold exceeds the accumulated gas. -/
theorem calculate_rewards_from_block (percentiles : List ℚ)
    (gas_used base_fee_per_gas : Nat)
    (transactions : List TransactionSigned) (receipts : List Receipt)
    (hne : transactions ≠ []) (hlen : transactions.length = receipts.length) :
    ∀ r ∈ calculate_reward_percentiles_for_block percentiles gas_used base_fee_per_gas
        transactions receipts,
      ∃ tx ∈ transactions,
        r = (tx.effective_tip_per_gas (some base_fee_per_gas)).getD 0 := by
  intro r hr
  have hzlen : (transactions.zip receipts).length = transactions.length := by
    rw [List.length_zip, hlen, min_self]
  have hslen :
      (sortByReward (scanGas base_fee_per_gas 0 (transactions.zip receipts))).length =
        transactions.length := by
    rw [sortByReward, (List.perm_insertionSort rewardLE _).length_eq, scanGas_length, hzlen]
  have hsne : sortByReward (scanGas base_fee_per_gas 0 (transactions.zip receipts)) ≠ [] := by
    intro hnil
    rw [hnil] at hslen
    exact hne (List.length_eq_zero.mp hslen.symm)
  have hr' : r ∈ percentileLoop gas_used
      (sortByReward (scanGas base_fee_per_gas 0 (transactions.zip receipts))) percentiles 0
      (((sortByReward (scanGas base_fee_per_gas 0
        (transactions.zip receipts))).head?.map TxGasAndReward.gas_used).getD 0) := hr
  obtain ⟨t, ht, rfl⟩ :=
    percentileLoop_mem gas_used _ hsne percentiles 0 _ (Nat.zero_le _) r hr'
  have ht' : t ∈ scanGas base_fee_per_gas 0 (transactions.zip receipts) :=
    (List.perm_insertionSort rewardLE _).mem_iff.mp ht
  obtain ⟨pr, hpr, heq⟩ := scanGas_reward_mem base_fee_per_gas _ 0 t ht'
  obtain ⟨tx, receipt⟩ := pr
  exact ⟨tx, (List.of_mem_zip hpr).1, heq⟩

/-- Witness for C10: the reward 1 emitted for the three-transaction block is
the tip of one of its transactions. -/
theorem calculate_rewards_from_block_witness :
    ∃ tx ∈ [tipTx 5, tipTx 1, tipTx 9],
      (1 : Nat) = (tx.effective_tip_per_gas (some 0)).getD 0 :=
  calculate_rewards_from_block [0, 50, 100] 90 0 [tipTx 5, tipTx 1, tipTx 9]
    [⟨30⟩, ⟨60⟩, ⟨90⟩] (List.cons_ne_nil _ _) (by decide) 1 (by decide)

theorem canonState_congr {a a' u u' m m' : Nat} (h1 : a = a') (h2 : u = u')
    (h3 : m = m') : canonState a u m = canonState a' u' m' := by
  subst h1; subst h2; subst h3; rfl

theorem getLast_eq_of_eq {l l' : List (Nat × FeeHistoryEntry)} (h : l = l')
    (h1 : l ≠ []) (h2 : l' ≠ []) : l.getLast h1 = l'.getLast h2 := by
  subst h; rfl

theorem finishState_of_eq (config : FeeHistoryCacheConfig)
    (l : List (Nat × FeeHistoryEntry)) (e : Nat × FeeHistoryEntry)
    (rest : List (Nat × FeeHistoryEntry))
    (h : evictLoop config.max_blocks l = e :: rest) :
    finishState config l =
      { lower_bound := e.1,
        upper_bound := ((e :: rest).getLast (List.cons_ne_nil e rest)).1,
        entries := e :: rest } := by
  unfold finishState
  rw [h]

theorem btreeInsert_append (l : List (Nat × FeeHistoryEntry)) (k : Nat)
    (v : FeeHistoryEntry) (h : ∀ x ∈ l, x.1 < k) :
    btreeInsert l k v = l ++ [(k, v)] := by
  induction l with
  | nil => rfl
  | cons a rest ih =>
    obtain ⟨k', v'⟩ := a
    have hk' : k' < k := h (k', v') (List.mem_cons_self _ _)
    unfold btreeInsert
    rw [if_neg (by omega), if_neg (by omega)]
    rw [ih fun x hx => h x (List.mem_cons_of_mem _ hx)]
    rfl

theorem range'_map_cons (a m : Nat) :
    (List.range' a (m + 1)).map (fun k => (k, scenarioEntry k)) =
      (a, scenarioEntry a) ::
        ((List.range' (a + 1) m).map fun k => (k, scenarioEntry k)) := by
  rw [List.range'_succ]
  rfl

theorem range'_map_getLast (a m : Nat)
    (h : (List.range' a (m + 1)).map (fun k => (k, scenarioEntry k)) ≠ []) :
    ((List.range' a (m + 1)).map (fun k => (k, scenarioEntry k))).getLast h =
      (a + m, scenarioEntry (a + m)) := by
  have hsplit : (List.range' a (m + 1)).map (fun k => (k, scenarioEntry k)) =
      ((List.range' a m).map fun k => (k, scenarioEntry k)) ++
        [(a + m, scenarioEntry (a + m))] := by
    rw [List.range'_concat, one_mul, List.map_append]
    rfl
  rw [getLast_eq_of_eq hsplit h (by simp)]
  exact List.getLast_concat _

theorem range'_map_getLast' (a m : Nat) (hm : 1 ≤ m)
    (h : (List.range' a m).map (fun k => (k, scenarioEntry k)) ≠ []) :
    ((List.range' a m).map (fun k => (k, scenarioEntry k))).getLast h =
      (a + m - 1, scenarioEntry (a + m - 1)) := by
  obtain ⟨m', rfl⟩ : ∃ m', m = m' + 1 := ⟨m - 1, by omega⟩
  rw [show a + (m' + 1) - 1 = a + m' from by omega]
  exact range'_map_getLast a m' h

theorem processBlocks_scenario_single (E : List (Nat × FeeHistoryEntry)) (n : Nat) :
    processBlocks allHitCache (predefined_percentiles scenarioConfig) E [blockAt n] =
      btreeInsert E n (scenarioEntry n) := rfl

theorem scenarioStep_grow (a m : Nat) (hm : 1 ≤ m) (hlt : m < 1024) :
    scenarioStep (canonState a (a + m - 1) m) (a + m) = canonState a (a + m) (m + 1) := by
  unfold scenarioStep
  rw [on_new_blocks_eq_finish]
  have hentries : (canonState a (a + m - 1) m).entries =
      (List.range' a m).map fun k => (k, scenarioEntry k) := rfl
  rw [hentries, processBlocks_scenario_single]
  rw [btreeInsert_append _ _ _ (by
    intro x hx
    obtain ⟨k, hk, rfl⟩ := List.mem_map.mp hx
    exact (List.mem_range'_1.mp hk).2)]
  have hl : ((List.range' a m).map fun k => (k, scenarioEntry k)) ++
      [(a + m, scenarioEntry (a + m))] =
      (List.range' a (m + 1)).map fun k => (k, scenarioEntry k) := by
    rw [List.range'_concat, one_mul, List.map_append]
    rfl
  rw [hl]
  have hev : evictLoop scenarioConfig.max_blocks
      ((List.range' a (m + 1)).map fun k => (k, scenarioEntry k)) =
      (List.range' a (m + 1)).map fun k => (k, scenarioEntry k) := by
    rw [evictLoop_eq_drop]
    have hz : ((List.range' a (m + 1)).map fun k =>
        (k, scenarioEntry k)).length - scenarioConfig.max_blocks = 0 := by
      simp only [List.length_map, List.length_range', scenarioConfig]
      omega
    rw [hz, List.drop_zero]
  rw [finishState_of_eq scenarioConfig _ (a, scenarioEntry a)
    ((List.range' (a + 1) m).map fun k => (k, scenarioEntry k))
    (hev.trans (range'_map_cons a m))]
  have hgl : (((a, scenarioEntry a) ::
      ((List.range' (a + 1) m).map fun k => (k, scenarioEntry k))).getLast
        (List.cons_ne_nil _ _)) = (a + m, scenarioEntry (a + m)) := by
    rw [getLast_eq_of_eq (range'_map_cons a m).symm _ (by simp)]
    exact range'_map_getLast a m _
  rw [hgl]
  rw [← range'_map_cons a m]
  rfl

theorem scenarioStep_slide (a : Nat) :
    scenarioStep (canonState a (a + 1023) 1024) (a + 1024) =
      canonState (a + 1) (a + 1024) 1024 := by
  unfold scenarioStep
  rw [on_new_blocks_eq_finish]
  have hentries : (canonState a (a + 1023) 1024).entries =
      (List.range' a 1024).map fun k => (k, scenarioEntry k) := rfl
  rw [hentries, processBlocks_scenario_single]
  rw [btreeInsert_append _ _ _ (by
    intro x hx
    obtain ⟨k, hk, rfl⟩ := List.mem_map.mp hx
    have := (List.mem_range'_1.mp hk).2
    omega)]
  have hl : (List.range' a 1025).map (fun k => (k, scenarioEntry k)) =
      ((List.range' a 1024).map fun k => (k, scenarioEntry k)) ++
        [(a + 1024, scenarioEntry (a + 1024))] := by
    conv_lhs => rw [show (1025 : Nat) = 1024 + 1 from rfl, List.range'_concat]
    rw [one_mul, List.map_append]
    simp only [List.map_cons, List.map_nil]
  rw [← hl]
  have hev : evictLoop scenarioConfig.max_blocks
      ((List.range' a 1025).map fun k => (k, scenarioEntry k)) =
      (List.range' (a + 1) 1024).map fun k => (k, scenarioEntry k) := by
    rw [evictLoop_eq_drop]
    have hz : ((List.range' a 1025).map fun k =>
        (k, scenarioEntry k)).length - scenarioConfig.max_blocks = 1 := by
      simp only [List.length_map, List.length_range', scenarioConfig]
    rw [hz]
    rw [show (1025 : Nat) = 1024 + 1 from rfl, range'_map_cons a 1024]
    rw [List.drop_succ_cons, List.drop_zero]
  rw [finishState_of_eq scenarioConfig _ (a + 1, scenarioEntry (a + 1))
    ((List.range' (a + 2) 1023).map fun k => (k, scenarioEntry k))
    (hev.trans (by
      rw [show (1024 : Nat) = 1023 + 1 from rfl, range'_map_cons (a + 1) 1023]))]
  have hc : (List.range' (a + 1) 1024).map (fun k => (k, scenarioEntry k)) =
      (a + 1, scenarioEntry (a + 1)) ::
        ((List.range' (a + 2) 1023).map fun k => (k, scenarioEntry k)) :=
    range'_map_cons (a + 1) 1023
  have hgl : (((a + 1, scenarioEntry (a + 1)) ::
      ((List.range' (a + 2) 1023).map fun k => (k, scenarioEntry k))).getLast
        (List.cons_ne_nil _ _)) = (a + 1024, scenarioEntry (a + 1024)) := by
    rw [getLast_eq_of_eq hc.symm _ (by simp)]
    rw [show a + 1024 = a + 1 + 1024 - 1 from by omega]
    exact range'_map_getLast' (a + 1) 1024 (by omega) _
  rw [hgl]
  rw [← hc]
  rfl

theorem scenarioStep_new : scenarioStep FeeHistoryCacheState.new 1 = canonState 1 1 1 := rfl

theorem scenarioState_succ (n : Nat) :
    scenarioState (n + 1) = scenarioStep (scenarioState n) (1 + n) := by
  unfold scenarioState
  rw [List.range'_concat, one_mul, List.foldl_append, List.foldl_cons, List.foldl_nil]

theorem scenarioState_canonical (n : Nat) (hn : 1 ≤ n) :
    scenarioState n = canonState (max 1 (n - 1023)) n (min n 1024) := by
  induction n, hn using Nat.le_induction with
  | base =>
    rw [show canonState (max 1 (1 - 1023)) 1 (min 1 1024) = canonState 1 1 1 from
      canonState_congr (by omega) rfl (by omega)]
    exact scenarioStep_new
  | succ n hn ih =>
    rw [scenarioState_succ n, ih]
    rcases Nat.lt_or_ge n 1024 with hlt | hge
    · rw [show canonState (max 1 (n - 1023)) n (min n 1024) =
          canonState 1 (1 + n - 1) n from
        canonState_congr (by omega) (by omega) (by omega)]
      rw [scenarioStep_grow 1 n hn hlt]
      exact canonState_congr (by omega) (by omega) (by omega)
    · rw [show canonState (max 1 (n - 1023)) n (min n 1024) =
          canonState (n - 1023) ((n - 1023) + 1023) 1024 from
        canonState_congr (by omega) (by omega) (by omega)]
      rw [show (1 : Nat) + n = (n - 1023) + 1024 from by omega]
      rw [scenarioStep_slide (n - 1023)]
      exact canonState_congr (by omega) (by omega) (by omega)

/-- C3 (counterexample): ingesting blocks 1..2000 one call each with
`max_blocks = 1024` leaves `lower_bound() = 977`, not 976 as claimed. -/
theorem scenario_lower_bound_ne_976 : (scenarioState 2000).lower_bound ≠ 976 := by
  rw [scenarioState_canonical 2000 (by omega)]
  show max 1 (2000 - 1023) ≠ 976
  omega

/-- C3 (amended): ingesting blocks 1..2000 one call each with
`max_blocks = 1024` leaves 1024 entries, blocks 977..2000 inclusive, with
`lower_bound() = 977` and `upper_bound() = 2000`. -/
theorem scenario_final_state :
    (scenarioState 2000).lower_bound = 977 ∧
    (scenarioState 2000).upper_bound = 2000 ∧
    (scenarioState 2000).entries.length = 1024 ∧
    keysOf (scenarioState 2000).entries = List.range' 977 1024 := by
  rw [scenarioState_canonical 2000 (by omega)]
  rw [show canonState (max 1 (2000 - 1023)) 2000 (min 2000 1024) =
      canonState 977 2000 1024 from canonState_congr (by omega) rfl (by omega)]
  refine ⟨rfl, rfl, ?_, ?_⟩
  · show ((List.range' 977 1024).map fun k => (k, scenarioEntry k)).length = 1024
    rw [List.length_map, List.length_range']
  · show keysOf ((List.range' 977 1024).map fun k => (k, scenarioEntry k)) =
      List.range' 977 1024
    unfold keysOf
    rw [List.map_map]
    exact List.map_id _
